import Mathlib

/-!
Shallow embedding of `src/Stepper.cpp` (the position-stable variant of the
Arduino Stepper library, four-wire constructor path) and proofs about it.

Machine-integer conventions (AVR-style 32-bit `unsigned long`, 32-bit `int`,
two's complement):
* `unsigned long` values are `ℕ` reduced mod `2^32`;
* the narrowing conversion `unsigned long -> int` is `toInt32`;
* `int` arithmetic that could overflow is wrapped with `wrap32`;
* C++ `/` and `%` on signed operands truncate toward zero: `Int.tdiv` /
  `Int.tmod`;
* C++ division by zero is a fault (undefined behavior), embedded as `none`.

The hardware collaborator is abstracted exactly as the spec's contract says:
`micros()` is a time source `clock : ℕ → ℕ` giving the value returned by the
k-th call, and `digitalWrite` calls are collected into an ordered trace of
`(pin slot, level)` pairs.  The busy-wait loop is given poll fuel; `none`
means the loop was still waiting when the fuel ran out, so every theorem
about a completed call carries a `= some _` hypothesis.
-/

namespace Stepper

/-- The modulus of a 32-bit `unsigned long`, `2^32`. -/
def ulMod : ℕ := 4294967296

/-- Half of `ulMod`, `2^31`: the first value that turns negative when an
`unsigned long` is narrowed to a 32-bit `int`. -/
def halfMod : ℕ := 2147483648

/-- Wraparound-safe `unsigned long` subtraction `a - b` (mod `2^32`), the
arithmetic C++ performs for `now - last_step_time` on unsigned operands. -/
def usub (a b : ℕ) : ℕ := (a % ulMod + (ulMod - b % ulMod)) % ulMod

/-- The narrowing conversion from `unsigned long` to a 32-bit two's-complement
`int`, as in `int left = now - last_step_time;`. -/
def toInt32 (x : ℕ) : ℤ :=
  if x % ulMod < halfMod then ((x % ulMod : ℕ) : ℤ)
  else ((x % ulMod : ℕ) : ℤ) - (ulMod : ℤ)

/-- Two's-complement wrap of a 32-bit signed `int` result. -/
def wrap32 (z : ℤ) : ℤ := (z + (halfMod : ℤ)) % (ulMod : ℤ) - (halfMod : ℤ)

/-- `Stepper::setSpeed`: `this->step_delay = 60L * 1000L * 1000L /
this->number_of_steps / whatSpeed;`.  C++ signed integer division truncates
toward zero (`Int.tdiv`); the code performs no zero check, so a zero divisor
is a division fault, embedded as `none`. -/
def setSpeed (number_of_steps whatSpeed : ℤ) : Option ℤ :=
  if number_of_steps = 0 ∨ whatSpeed = 0 then none
  else some (((60 * 1000 * 1000 : ℤ).tdiv number_of_steps).tdiv whatSpeed)

/-- The loop's required-wait computation: `int esti = this->step_delay;`
(narrowing the stored delay to `int`), then `esti += steps_left * 100;` when
`steps_left < 10` ("Stop slowly").  `stepsLeft` is the pre-decrement value of
`steps_left` at the top of the loop body. -/
def esti (stepDelay : ℕ) (stepsLeft : ℕ) : ℤ :=
  if stepsLeft < 10 then wrap32 (toInt32 stepDelay + (stepsLeft : ℤ) * 100)
  else toInt32 stepDelay

/-- `int steps = (4 + (steps_left * direction) % 4) % 4;` with C++ truncating
`%` (`Int.tmod`); `stepsLeft` here is the already-decremented `steps_left`. -/
def phaseOf (stepsLeft direction : ℤ) : ℤ :=
  (4 + (stepsLeft * direction).tmod 4).tmod 4

/-- Arduino `bitRead(value, n)`: bit `n` of `value`. -/
def bitRead (value n : ℕ) : Bool := (value >>> n) % 2 == 1

/-- `Stepper::stepMotor`: `digitalWrite(motor_pin[i], bitRead(0xCC, thisStep + i))`
for `i = 0..3`, returned as the ordered list of `(pin slot, level)` writes. -/
def stepMotorWrites (thisStep : ℤ) : List (ℕ × Bool) :=
  (List.range 4).map fun i => (i, bitRead 0xCC (thisStep + (i : ℤ)).toNat)

/-- `Stepper::resetMotor`: `digitalWrite(motor_pin[i], LOW)` for `i = 0..3`. -/
def resetMotorWrites : List (ℕ × Bool) :=
  (List.range 4).map fun i => (i, false)

/-- The busy-poll stepping loop of `Stepper::step` (the `while (steps_left > 0)`
loop).  `clock k` is the value the k-th call of `micros()` returns; `fuel`
bounds the number of polls.  Returns the emissions — the phase index passed to
`stepMotor` together with the `now` recorded into `last_step_time` at that
step — or `none` if the fuel ran out while the loop was still waiting.
Arguments after `direction`: fuel, poll index, `steps_left`, `last_step_time`. -/
def runLoop (stepDelay : ℕ) (clock : ℕ → ℕ) (direction : ℤ) :
    ℕ → ℕ → ℕ → ℕ → Option (List (ℤ × ℕ))
  | _, _, 0, _ => some []
  | 0, _, _ + 1, _ => none
  | fuel + 1, pollIdx, stepsLeft + 1, lastStepTime =>
    if esti stepDelay (stepsLeft + 1) ≤
        toInt32 (usub (clock pollIdx % ulMod) lastStepTime) then
      match runLoop stepDelay clock direction fuel (pollIdx + 1) stepsLeft
          (clock pollIdx % ulMod) with
      | none => none
      | some rest =>
        some ((phaseOf (stepsLeft : ℤ) direction, clock pollIdx % ulMod) :: rest)
    else
      runLoop stepDelay clock direction fuel (pollIdx + 1) (stepsLeft + 1)
        lastStepTime

/-- `Stepper::step` (the `move` entry point): for `steps_to_move != 0`, set
`steps_left = abs(steps_to_move)`, `direction = steps_left / -steps_to_move`
(C++ truncating division), run the polling loop starting from
`last_step_time = 0`, then `resetMotor()`.  Returns the emission list and the
full ordered pin-write trace, or `none` if the poll fuel ran out.  For
`steps_to_move == 0` the guard skips everything: no writes at all. -/
def step (stepDelay : ℕ) (clock : ℕ → ℕ) (fuel : ℕ) (steps_to_move : ℤ) :
    Option (List (ℤ × ℕ) × List (ℕ × Bool)) :=
  if steps_to_move = 0 then some ([], [])
  else
    match runLoop stepDelay clock
        ((steps_to_move.natAbs : ℤ).tdiv (-steps_to_move))
        fuel 0 steps_to_move.natAbs 0 with
    | none => none
    | some ems =>
      some (ems, ems.flatMap (fun e => stepMotorWrites e.1) ++ resetMotorWrites)

/-- Apply an ordered list of `(pin slot, level)` writes to a pin-level state
(later writes overwrite earlier ones). -/
def applyWrites (s : ℕ → Bool) : List (ℕ × Bool) → (ℕ → Bool)
  | [] => s
  | w :: rest => applyWrites (fun q => if q = w.1 then w.2 else s q) rest

/-- The timing discipline the loop enforces along an emission list: starting
from `stepsLeft` steps to go and previous timestamp `lastStepTime`, each
emission was accepted only when the int-narrowed elapsed time since the
previous recorded timestamp reached the `esti` threshold for the
pre-decrement `steps_left` value. -/
def timedChain (stepDelay : ℕ) : ℕ → ℕ → List (ℤ × ℕ) → Prop
  | _, _, [] => True
  | stepsLeft, lastStepTime, e :: rest =>
    esti stepDelay stepsLeft ≤ toInt32 (usub e.2 lastStepTime) ∧
    timedChain stepDelay (stepsLeft - 1) e.2 rest

/-- `Stepper::version`. -/
def version : ℤ := 5

/-! ## Concrete evaluation data

A sample session used to instantiate the theorems: `spr = 200`, `rpm = 60`
(so `step_delay = 5000` µs), a time source that advances 6000 µs per poll,
and a `move(2)` call (and its mirror `move(-2)`). -/

/-- A sample time source: the k-th `micros()` call returns `6000 k`. -/
def wClock : ℕ → ℕ := fun k => k * 6000

/-- The emissions of `step 5000 wClock 10 2`. -/
def wEms : List (ℤ × ℕ) := [(3, 6000), (0, 12000)]

/-- The pin-write trace of `step 5000 wClock 10 2`. -/
def wWrites : List (ℕ × Bool) :=
  [(0, true), (1, false), (2, false), (3, true),
   (0, false), (1, false), (2, true), (3, true),
   (0, false), (1, false), (2, false), (3, false)]

/-- The emissions of `step 5000 wClock 10 (-2)`. -/
def wEmsM : List (ℤ × ℕ) := [(1, 6000), (0, 12000)]

/-- The pin-write trace of `step 5000 wClock 10 (-2)`. -/
def wWritesM : List (ℕ × Bool) :=
  [(0, false), (1, true), (2, true), (3, false),
   (0, false), (1, false), (2, true), (3, true),
   (0, false), (1, false), (2, false), (3, false)]

/-! ## Arithmetic helper lemmas -/

theorem ulMod_pos : 0 < ulMod := by unfold ulMod; omega

theorem usub_lt_ulMod (a b : ℕ) : usub a b < ulMod := Nat.mod_lt _ ulMod_pos

theorem toInt32_of_nonneg {x : ℕ} (h : 0 ≤ toInt32 x) :
    toInt32 x = ((x % ulMod : ℕ) : ℤ) := by
  unfold toInt32 at h ⊢
  by_cases hx : x % ulMod < halfMod
  · rw [if_pos hx]
  · rw [if_neg hx] at h ⊢
    have hlt : x % ulMod < ulMod := Nat.mod_lt _ ulMod_pos
    unfold ulMod halfMod at *
    omega

theorem esti_eq {d : ℕ} (hd : d ≤ 60000000) (k : ℕ) :
    esti d k = (d : ℤ) + (if k < 10 then (k : ℤ) * 100 else 0) := by
  have hdm : d % ulMod = d := Nat.mod_eq_of_lt (by unfold ulMod; omega)
  have ht : toInt32 d = (d : ℤ) := by
    unfold toInt32
    rw [hdm, if_pos (by unfold halfMod; omega)]
  unfold esti
  by_cases hk : k < 10
  · rw [if_pos hk, if_pos hk, ht]
    unfold wrap32 ulMod halfMod
    have hb : (k : ℤ) * 100 ≤ 900 := by omega
    omega
  · rw [if_neg hk, if_neg hk, ht]
    ring

theorem esti_ge {d : ℕ} (hd : d ≤ 60000000) (k : ℕ) : (d : ℤ) ≤ esti d k := by
  rw [esti_eq hd k]
  split <;> omega

theorem neg_tmod_eq (a b : ℤ) : (-a).tmod b = -(a.tmod b) := by
  have h1 := Int.tmod_add_tdiv (-a) b
  have h2 := Int.tmod_add_tdiv a b
  rw [Int.neg_tdiv] at h1
  linarith

/-- The phase computation is a floor modulo: for a nonnegative count times a
unit direction, `(4 + a % 4) % 4` with C++ truncating `%` equals the
mathematical (floor) modulo. -/
theorem phaseOf_eq_emod (z dir : ℤ) (hz : 0 ≤ z) (hdir : dir = 1 ∨ dir = -1) :
    phaseOf z dir = (z * dir) % 4 := by
  unfold phaseOf
  have key : ∀ a : ℤ, -4 < a.tmod 4 ∧ a.tmod 4 < 4 →
      (4 + a.tmod 4).tmod 4 = a % 4 := by
    intro a ⟨hlb, hub⟩
    rw [Int.tmod_eq_emod (by omega) (by norm_num)]
    have h5 := Int.tmod_add_tdiv a 4
    have h6 : (4 : ℤ) + a.tmod 4 = a.tmod 4 + 4 * 1 := by ring
    calc (4 + a.tmod 4) % 4 = (a.tmod 4 + 4 * 1) % 4 := by rw [h6]
      _ = a.tmod 4 % 4 := Int.add_mul_emod_self_left _ _ _
      _ = (a.tmod 4 + 4 * a.tdiv 4) % 4 := (Int.add_mul_emod_self_left _ _ _).symm
      _ = a % 4 := by rw [h5]
  rcases hdir with h | h
  · subst h
    have h0 : 0 ≤ z * 1 := by omega
    refine key _ ⟨?_, Int.tmod_lt_of_pos _ (by norm_num)⟩
    have := Int.tmod_nonneg (a := z * 1) 4 h0
    omega
  · subst h
    have h0 : z * -1 = -(z * 1) := by ring
    rw [h0]
    have hneg : (-(z * 1)).tmod 4 = -((z * 1).tmod 4) := neg_tmod_eq _ _
    have hnn := Int.tmod_nonneg (a := z * 1) 4 (by omega)
    have hub := Int.tmod_lt_of_pos (z * 1) (b := 4) (by norm_num)
    exact key _ ⟨by omega, by omega⟩

theorem phaseOf_range (z dir : ℤ) (hz : 0 ≤ z) (hdir : dir = 1 ∨ dir = -1) :
    0 ≤ phaseOf z dir ∧ phaseOf z dir < 4 := by
  rw [phaseOf_eq_emod z dir hz hdir]
  exact ⟨Int.emod_nonneg _ (by norm_num), Int.emod_lt_of_pos _ (by norm_num)⟩

/-- The value of `int direction = steps_left / -steps_to_move;`: truncating
division of `|s|` by `-s` gives `-1` for positive `s` and `1` for negative. -/
theorem direction_eq {s : ℤ} (hs : s ≠ 0) :
    ((s.natAbs : ℤ)).tdiv (-s) = if 0 < s then -1 else 1 := by
  rcases lt_trichotomy s 0 with h | h | h
  · rw [if_neg (by omega)]
    have hn : (s.natAbs : ℤ) = -s := by omega
    rw [hn]
    exact Int.tdiv_self (by omega)
  · exact absurd h hs
  · rw [if_pos h]
    have hn : (s.natAbs : ℤ) = s := by omega
    rw [hn, Int.tdiv_neg, Int.tdiv_self (by omega)]

/-! ## Structural lemmas about the stepping loop -/

/-- Everything a completed loop run guarantees at once: the emission count is
the starting `steps_left`, the emissions obey the timing discipline, and the
i-th emitted phase index is computed from the decremented count
`sl - 1 - i` and the direction alone. -/
theorem runLoop_sound {d : ℕ} {clock : ℕ → ℕ} {dir : ℤ} :
    ∀ (fuel pollIdx sl last : ℕ) (ems : List (ℤ × ℕ)),
      runLoop d clock dir fuel pollIdx sl last = some ems →
      ems.length = sl ∧ timedChain d sl last ems ∧
      ∀ i (h : i < ems.length),
        (ems.get ⟨i, h⟩).1 = phaseOf ((sl : ℤ) - 1 - (i : ℤ)) dir := by
  intro fuel
  induction fuel with
  | zero =>
    intro p sl last ems hrun
    cases sl with
    | zero =>
      simp only [runLoop, Option.some.injEq] at hrun
      subst hrun
      exact ⟨rfl, trivial, fun i h => absurd h (by simp)⟩
    | succ n =>
      simp only [runLoop] at hrun
      exact Option.noConfusion hrun
  | succ fuel ih =>
    intro p sl last ems hrun
    cases sl with
    | zero =>
      simp only [runLoop, Option.some.injEq] at hrun
      subst hrun
      exact ⟨rfl, trivial, fun i h => absurd h (by simp)⟩
    | succ n =>
      simp only [runLoop] at hrun
      split at hrun
      · rename_i hcond
        cases hrec : runLoop d clock dir fuel (p + 1) n (clock p % ulMod) with
        | none => rw [hrec] at hrun; simp at hrun
        | some rest =>
          rw [hrec] at hrun
          simp only [Option.some.injEq] at hrun
          subst hrun
          obtain ⟨ihlen, ihchain, ihidx⟩ := ih (p + 1) n (clock p % ulMod) rest hrec
          refine ⟨by simp [ihlen], ⟨hcond, by simpa using ihchain⟩, ?_⟩
          intro i h
          cases i with
          | zero =>
            show phaseOf (n : ℤ) dir = phaseOf _ dir
            congr 1
            push_cast
            ring
          | succ i =>
            simp only [List.get_cons_succ]
            have hi : i < rest.length := by simpa using h
            have harg : ((n : ℤ) + 1) - 1 - ((i : ℤ) + 1) = (n : ℤ) - 1 - (i : ℤ) := by
              ring
            push_cast
            rw [harg]
            exact ihidx i hi
      · exact ih (p + 1) (n + 1) last ems hrun

/-- Chain-to-adjacent form of the timing discipline: for any two consecutive
emissions, the int-narrowed elapsed time between their recorded timestamps
reached the `esti` threshold for the later one's pre-decrement count. -/
theorem timedChain_adjacent {d : ℕ} :
    ∀ (ems : List (ℤ × ℕ)) (sl last : ℕ), timedChain d sl last ems →
      ∀ i (h : i + 1 < ems.length),
        esti d (sl - (i + 1)) ≤
          toInt32 (usub (ems.get ⟨i + 1, h⟩).2 ((ems.get ⟨i, by omega⟩).2)) := by
  intro ems
  induction ems with
  | nil => intro sl last hch i h; simp at h
  | cons e rest ihe =>
    intro sl last hch i h
    obtain ⟨h1, h2⟩ := hch
    cases i with
    | zero =>
      cases rest with
      | nil => simp at h
      | cons e2 rest2 =>
        simpa using h2.1
    | succ i =>
      have hi : i + 1 < rest.length := by simpa using h
      have := ihe (sl - 1) e.2 h2 i hi
      have harg : sl - (i + 1 + 1) = sl - 1 - (i + 1) := by omega
      rw [harg]
      simpa using this

/-- Unfolding of a completed `step` call with nonzero argument: the loop ran
to completion with `steps_left = |s|` and the code's `direction`, and the
write trace is the per-emission `stepMotor` writes followed by the
`resetMotor` writes. -/
theorem step_some_elim {d : ℕ} {clock : ℕ → ℕ} {fuel : ℕ} {s : ℤ} (hs : s ≠ 0)
    {ems : List (ℤ × ℕ)} {ws : List (ℕ × Bool)}
    (hrun : step d clock fuel s = some (ems, ws)) :
    runLoop d clock ((s.natAbs : ℤ).tdiv (-s)) fuel 0 s.natAbs 0 = some ems ∧
    ws = ems.flatMap (fun e => stepMotorWrites e.1) ++ resetMotorWrites := by
  unfold step at hrun
  rw [if_neg hs] at hrun
  cases hrec : runLoop d clock ((s.natAbs : ℤ).tdiv (-s)) fuel 0 s.natAbs 0 with
  | none => rw [hrec] at hrun; simp at hrun
  | some ems0 =>
    rw [hrec] at hrun
    simp only [Option.some.injEq, Prod.mk.injEq] at hrun
    obtain ⟨he, hw⟩ := hrun
    subst he
    exact ⟨rfl, hw.symm⟩

/-- Applying writes distributes over list append. -/
theorem applyWrites_append (s : ℕ → Bool) (l1 l2 : List (ℕ × Bool)) :
    applyWrites s (l1 ++ l2) = applyWrites (applyWrites s l1) l2 := by
  induction l1 generalizing s with
  | nil => rfl
  | cons w rest ihw =>
    simp only [List.cons_append, applyWrites]
    exact ihw _

/-- The `resetMotor` writes leave every motor pin low, whatever state they
are applied to. -/
theorem applyWrites_reset (s : ℕ → Bool) (p : ℕ) (hp : p < 4) :
    applyWrites s resetMotorWrites p = false := by
  interval_cases p <;> rfl

/-! ## Claim theorems -/

/-- C7: `setSpeed` with positive inputs stores exactly
`60_000_000 / steps_per_revolution / rpm` under integer (floor) division —
the C++ truncating division agrees with the spec's unsigned division on
positive operands — and in particular `steps_per_revolution = 200`,
`rpm = 60` yields `step_delay = 5000`. -/
theorem setSpeed_formula (n r : ℕ) (hn : 0 < n) (hr : 0 < r) :
    setSpeed (n : ℤ) (r : ℤ) = some ((60000000 / n / r : ℕ) : ℤ) ∧
    setSpeed 200 60 = some 5000 := by
  refine ⟨?_, by decide⟩
  unfold setSpeed
  rw [if_neg (by omega)]
  have h1 : ((60 * 1000 * 1000 : ℤ)) = ((60000000 : ℕ) : ℤ) := by norm_num
  have e1 : ((60000000 : ℕ) : ℤ).tdiv (n : ℤ) = ((60000000 / n : ℕ) : ℤ) :=
    (Int.ofNat_tdiv _ _).symm
  have e2 : ((60000000 / n : ℕ) : ℤ).tdiv (r : ℤ) = ((60000000 / n / r : ℕ) : ℤ) :=
    (Int.ofNat_tdiv _ _).symm
  rw [h1, e1, e2]

/-- C7 witness: the theorem instantiated at `n = 200`, `r = 60`. -/
theorem setSpeed_formula_witness :
    setSpeed 200 60 = some ((60000000 / 200 / 60 : ℕ) : ℤ) ∧
    setSpeed 200 60 = some 5000 :=
  setSpeed_formula 200 60 (by norm_num) (by norm_num)

/-- C2: the code does NOT reject `rpm == 0`.  `setSpeed(0)` performs
`60000000 / number_of_steps / 0`, a C++ division by zero — a fault (embedded
as `none`), not a surfaced `ConfigurationError` value; no such error type
exists anywhere in the code. -/
theorem setSpeed_zero_is_division_fault : setSpeed 200 0 = none := by decide

/-- C3: the elapsed-time comparison is NOT correct for every pair of
timestamps.  The unsigned subtraction `now - last_step_time` is wraparound
safe, but the code narrows it to a signed `int` (`int left = ...`), so with
`last_step_timestamp = 0`, `now = 2^31` and `step_delay = 5000` the true
elapsed time (2^31 µs) far exceeds the threshold, yet the narrowed value is
negative and the loop refuses to step: `move(1)` makes no progress in 20
polls at that frozen clock. -/
theorem elapsed_narrowing_stalls_loop :
    esti 5000 1 ≤ ((usub halfMod 0 : ℕ) : ℤ) ∧
    toInt32 (usub halfMod 0) < esti 5000 1 ∧
    step 5000 (fun _ => halfMod) 20 1 = none := by decide

/-- C4 counterexample: with `step_delay = 5000`, the required inter-step
delay at `steps_remaining = 8` is strictly SMALLER than at
`steps_remaining = 9`, so the delay is not monotonically non-decreasing as
`steps_remaining` decreases (it is 5900, 5800, ..., 5100 over the final 9
steps). -/
theorem decel_nondecreasing_fails : esti 5000 8 < esti 5000 9 := by decide

/-- C4 (amended): during the final 9 steps the required inter-step delay
(`step_delay` plus the `steps_remaining * 100` bonus applied when
`steps_remaining < 10`) is monotonically non-INCREASING as `steps_remaining`
decreases toward 1, dropping by exactly 100 µs per step. -/
theorem decel_delay_monotone (d : ℕ) (hd : d ≤ 60000000) (k : ℕ)
    (h1 : 1 ≤ k) (h9 : k < 9) :
    esti d k ≤ esti d (k + 1) ∧ esti d (k + 1) = esti d k + 100 := by
  rw [esti_eq hd k, esti_eq hd (k + 1), if_pos (by omega), if_pos (by omega)]
  constructor
  · omega
  · push_cast
    ring

/-- C4 witness: the amended monotonicity at `d = 5000`, `k = 3`. -/
theorem decel_delay_monotone_witness :
    esti 5000 3 ≤ esti 5000 4 ∧ esti 5000 4 = esti 5000 3 + 100 :=
  decel_delay_monotone 5000 (by norm_num) 3 (by norm_num) (by norm_num)

/-- C9: `move(0)` is a no-op: the `steps_to_move != 0` guard skips the whole
body, so no pin write happens at all (not even the de-energize writes) and
the pin state is left exactly as it was. -/
theorem move_zero_noop (d : ℕ) (clock : ℕ → ℕ) (fuel : ℕ) (init : ℕ → Bool) :
    step d clock fuel 0 = some ([], []) ∧ applyWrites init [] = init :=
  ⟨rfl, rfl⟩

/-- C1: a completed `move` with nonzero argument emits exactly
`|steps_to_move|` phase patterns, and every emission after the first happens
only once the elapsed time since the previous emission, as measured by the
time source (wraparound-safe subtraction of the recorded timestamps), is at
least the required delay — `esti` for the remaining step count, which is
itself at least `step_delay`. -/
theorem move_step_count_and_pacing (d : ℕ) (hd : d ≤ 60000000)
    (clock : ℕ → ℕ) (fuel : ℕ) (s : ℤ) (hs : s ≠ 0)
    (ems : List (ℤ × ℕ)) (ws : List (ℕ × Bool))
    (hrun : step d clock fuel s = some (ems, ws)) :
    ems.length = s.natAbs ∧
    ∀ i (h : i + 1 < ems.length),
      (d : ℤ) ≤ esti d (s.natAbs - (i + 1)) ∧
      esti d (s.natAbs - (i + 1)) ≤
        ((usub (ems.get ⟨i + 1, h⟩).2 ((ems.get ⟨i, by omega⟩).2) : ℕ) : ℤ) := by
  obtain ⟨hloop, hws⟩ := step_some_elim hs hrun
  obtain ⟨hlen, hch, hidx⟩ := runLoop_sound fuel 0 s.natAbs 0 ems hloop
  refine ⟨hlen, ?_⟩
  intro i h
  have hadj := timedChain_adjacent ems s.natAbs 0 hch i h
  refine ⟨esti_ge hd _, ?_⟩
  have hnn : 0 ≤ toInt32 (usub (ems.get ⟨i + 1, h⟩).2 ((ems.get ⟨i, by omega⟩).2)) :=
    le_trans (le_trans (by positivity) (esti_ge hd (s.natAbs - (i + 1)))) hadj
  rw [toInt32_of_nonneg hnn] at hadj
  rwa [Nat.mod_eq_of_lt (usub_lt_ulMod _ _)] at hadj

/-- C1 witness: the `move(2)` sample run at `step_delay = 5000` emits 2
patterns and the second comes 6000 ≥ 5100 µs after the first. -/
theorem move_step_count_and_pacing_witness :
    wEms.length = (2 : ℤ).natAbs ∧
    ((5000 : ℕ) : ℤ) ≤ esti 5000 ((2 : ℤ).natAbs - (0 + 1)) ∧
    esti 5000 ((2 : ℤ).natAbs - (0 + 1)) ≤
      ((usub (wEms.get ⟨0 + 1, by decide⟩).2 ((wEms.get ⟨0, by decide⟩).2) : ℕ) : ℤ) := by
  have h := move_step_count_and_pacing 5000 (by norm_num) wClock 10 2 (by decide)
    wEms wWrites (by decide)
  exact ⟨h.1, (h.2 0 (by decide)).1, (h.2 0 (by decide)).2⟩

/-- C5: every phase index a completed `move` passes to the emission function
lies in `[0, 4)`, whatever the sign of `steps_to_move`: the
`(4 + x % 4) % 4` computation is a floor modulo of the decremented
remaining-step count times the direction, hence never negative. -/
theorem phase_index_in_range (d : ℕ) (clock : ℕ → ℕ) (fuel : ℕ) (s : ℤ)
    (hs : s ≠ 0) (ems : List (ℤ × ℕ)) (ws : List (ℕ × Bool))
    (hrun : step d clock fuel s = some (ems, ws)) :
    ∀ i (h : i < ems.length),
      0 ≤ (ems.get ⟨i, h⟩).1 ∧ (ems.get ⟨i, h⟩).1 < 4 ∧
      (ems.get ⟨i, h⟩).1 =
        (((s.natAbs : ℤ) - 1 - (i : ℤ)) * (if 0 < s then -1 else 1)) % 4 := by
  obtain ⟨hloop, hws⟩ := step_some_elim hs hrun
  obtain ⟨hlen, hch, hidx⟩ := runLoop_sound fuel 0 s.natAbs 0 ems hloop
  intro i h
  have hz : 0 ≤ (s.natAbs : ℤ) - 1 - (i : ℤ) := by
    have hi : i < s.natAbs := hlen ▸ h
    omega
  have hd2 : (if 0 < s then (-1 : ℤ) else 1) = 1 ∨
      (if 0 < s then (-1 : ℤ) else 1) = -1 := by
    split
    · right; rfl
    · left; rfl
  rw [hidx i h, direction_eq hs, phaseOf_eq_emod _ _ hz hd2]
  exact ⟨Int.emod_nonneg _ (by norm_num), Int.emod_lt_of_pos _ (by norm_num), rfl⟩

/-- C5 witness: the first emission of the `move(2)` sample run is index 3,
in range and equal to the floor modulo `((2 - 1 - 0) * -1) mod 4`. -/
theorem phase_index_in_range_witness :
    0 ≤ (wEms.get ⟨0, by decide⟩).1 ∧ (wEms.get ⟨0, by decide⟩).1 < 4 ∧
    (wEms.get ⟨0, by decide⟩).1 =
      ((((2 : ℤ).natAbs : ℤ) - 1 - ((0 : ℕ) : ℤ)) *
        (if (0 : ℤ) < 2 then -1 else 1)) % 4 :=
  phase_index_in_range 5000 wClock 10 2 (by decide) wEms wWrites (by decide)
    0 (by decide)

/-- C6: after any completed `move` with nonzero argument, the final pin
state is all-low: the write trace ends with the `resetMotor` writes, which
drive every motor pin low regardless of what was written before. -/
theorem move_deenergizes_pins (d : ℕ) (clock : ℕ → ℕ) (fuel : ℕ) (s : ℤ)
    (hs : s ≠ 0) (ems : List (ℤ × ℕ)) (ws : List (ℕ × Bool))
    (hrun : step d clock fuel s = some (ems, ws))
    (init : ℕ → Bool) (p : ℕ) (hp : p < 4) :
    applyWrites init ws p = false := by
  obtain ⟨hloop, hws⟩ := step_some_elim hs hrun
  subst hws
  rw [applyWrites_append]
  exact applyWrites_reset _ p hp

/-- C6 witness: pin 2 reads low after the `move(2)` sample run, starting
from an all-high pin state. -/
theorem move_deenergizes_pins_witness :
    applyWrites (fun _ => true) wWrites 2 = false :=
  move_deenergizes_pins 5000 wClock 10 2 (by decide) wEms wWrites (by decide)
    (fun _ => true) 2 (by decide)

/-- C10: every completed nonzero `move` emits exactly `|steps_to_move|`
patterns and its final emission is always phase index 0: the index is
computed from the decremented `steps_left` (0 at the last step) and the
direction only — no phase position survives across calls. -/
theorem move_ends_at_phase_zero (d : ℕ) (clock : ℕ → ℕ) (fuel : ℕ) (s : ℤ)
    (hs : s ≠ 0) (ems : List (ℤ × ℕ)) (ws : List (ℕ × Bool))
    (hrun : step d clock fuel s = some (ems, ws)) :
    ems.length = s.natAbs ∧ ∀ (hne : ems ≠ []), (ems.getLast hne).1 = 0 := by
  obtain ⟨hloop, hws⟩ := step_some_elim hs hrun
  obtain ⟨hlen, hch, hidx⟩ := runLoop_sound fuel 0 s.natAbs 0 ems hloop
  refine ⟨hlen, ?_⟩
  intro hne
  have hlpos : 0 < ems.length := List.length_pos.mpr hne
  rw [List.getLast_eq_get, hidx (ems.length - 1) (by omega)]
  have hz : ((s.natAbs : ℤ)) - 1 - ((ems.length - 1 : ℕ) : ℤ) = 0 := by
    have he : ems.length = s.natAbs := hlen
    omega
  have hdir : ((s.natAbs : ℤ)).tdiv (-s) = 1 ∨ ((s.natAbs : ℤ)).tdiv (-s) = -1 := by
    rw [direction_eq hs]
    split
    · right; rfl
    · left; rfl
  rw [hz, phaseOf_eq_emod 0 _ le_rfl hdir]
  simp only [zero_mul]
  decide

/-- C10 witness: the `move(2)` sample run has 2 emissions and ends at phase
index 0. -/
theorem move_ends_at_phase_zero_witness :
    wEms.length = (2 : ℤ).natAbs ∧ (wEms.getLast (by decide)).1 = 0 := by
  have h := move_ends_at_phase_zero 5000 wClock 10 2 (by decide) wEms wWrites
    (by decide)
  exact ⟨h.1, h.2 (by decide)⟩

/-- C8: `move(+N)` and `move(-N)` traverse the same adjacent phase-index
chain in opposite directions relative to the common final index: both
completed moves emit `N` indices and end at the same final index, the
positive move's consecutive indices differ by `+1` modulo 4 and the negative
move's by `-1` modulo 4. -/
theorem move_direction_reversal (d d' : ℕ) (c c' : ℕ → ℕ) (fuel fuel' : ℕ)
    (N : ℕ) (hN : 0 < N)
    (emsP : List (ℤ × ℕ)) (wsP : List (ℕ × Bool))
    (emsM : List (ℤ × ℕ)) (wsM : List (ℕ × Bool))
    (hp : step d c fuel (N : ℤ) = some (emsP, wsP))
    (hm : step d' c' fuel' (-(N : ℤ)) = some (emsM, wsM)) :
    emsP.length = N ∧ emsM.length = N ∧
    (∀ (h1 : emsP ≠ []) (h2 : emsM ≠ []),
        (emsP.getLast h1).1 = (emsM.getLast h2).1) ∧
    (∀ i (h : i + 1 < emsP.length),
        (emsP.get ⟨i + 1, h⟩).1 = ((emsP.get ⟨i, by omega⟩).1 + 1) % 4) ∧
    (∀ i (h : i + 1 < emsM.length),
        (emsM.get ⟨i + 1, h⟩).1 = ((emsM.get ⟨i, by omega⟩).1 - 1) % 4) := by
  have hsP : ((N : ℤ)) ≠ 0 := by omega
  have hsM : (-(N : ℤ)) ≠ 0 := by omega
  have hnaP : ((N : ℤ)).natAbs = N := by omega
  have hnaM : ((-(N : ℤ))).natAbs = N := by omega
  obtain ⟨hloopP, _⟩ := step_some_elim hsP hp
  obtain ⟨hloopM, _⟩ := step_some_elim hsM hm
  obtain ⟨hlenP, _, hidxP⟩ := runLoop_sound fuel 0 ((N : ℤ)).natAbs 0 emsP hloopP
  obtain ⟨hlenM, _, hidxM⟩ :=
    runLoop_sound fuel' 0 ((-(N : ℤ))).natAbs 0 emsM hloopM
  have hdirP : ((((N : ℤ)).natAbs : ℤ)).tdiv (-(N : ℤ)) = -1 := by
    rw [direction_eq hsP, if_pos (by omega)]
  have hdirM : ((((-(N : ℤ))).natAbs : ℤ)).tdiv (-(-(N : ℤ))) = 1 := by
    rw [direction_eq hsM, if_neg (by omega)]
  have hLP : emsP.length = N := by rw [hlenP, hnaP]
  have hLM : emsM.length = N := by rw [hlenM, hnaM]
  have hfP : ∀ i (h : i < emsP.length),
      (emsP.get ⟨i, h⟩).1 = ((i : ℤ) + 1 - (N : ℤ)) % 4 := by
    intro i h
    have hz : 0 ≤ ((((N : ℤ)).natAbs : ℤ)) - 1 - (i : ℤ) := by
      have hi : i < ((N : ℤ)).natAbs := hlenP ▸ h
      omega
    rw [hidxP i h, hdirP, phaseOf_eq_emod _ _ hz (Or.inr rfl)]
    have harg : ((((N : ℤ)).natAbs : ℤ) - 1 - (i : ℤ)) * -1 =
        (i : ℤ) + 1 - (N : ℤ) := by
      have hcast : ((((N : ℤ)).natAbs : ℤ)) = (N : ℤ) := by omega
      rw [hcast]; ring
    rw [harg]
  have hfM : ∀ i (h : i < emsM.length),
      (emsM.get ⟨i, h⟩).1 = ((N : ℤ) - 1 - (i : ℤ)) % 4 := by
    intro i h
    have hz : 0 ≤ ((((-(N : ℤ))).natAbs : ℤ)) - 1 - (i : ℤ) := by
      have hi : i < ((-(N : ℤ))).natAbs := hlenM ▸ h
      omega
    rw [hidxM i h, hdirM, phaseOf_eq_emod _ _ hz (Or.inl rfl)]
    have harg : ((((-(N : ℤ))).natAbs : ℤ) - 1 - (i : ℤ)) * 1 =
        (N : ℤ) - 1 - (i : ℤ) := by
      have hcast : ((((-(N : ℤ))).natAbs : ℤ)) = (N : ℤ) := by omega
      rw [hcast]; ring
    rw [harg]
  refine ⟨hLP, hLM, ?_, ?_, ?_⟩
  · intro h1 h2
    have hp1 : 0 < emsP.length := List.length_pos.mpr h1
    have hm1 : 0 < emsM.length := List.length_pos.mpr h2
    rw [List.getLast_eq_get, List.getLast_eq_get, hfP _ (by omega), hfM _ (by omega)]
    have e1 : ((emsP.length - 1 : ℕ) : ℤ) + 1 - (N : ℤ) = 0 := by omega
    have e2 : (N : ℤ) - 1 - ((emsM.length - 1 : ℕ) : ℤ) = 0 := by omega
    rw [e1, e2]
  · intro i h
    rw [hfP _ h, hfP _ (by omega)]
    push_cast
    omega
  · intro i h
    rw [hfM _ h, hfM _ (by omega)]
    push_cast
    omega

/-- C8 witness: the `move(2)` / `move(-2)` sample runs emit `[3, 0]` and
`[1, 0]`: both length 2, same final index, stepping `+1` and `-1` modulo 4
respectively. -/
theorem move_direction_reversal_witness :
    wEms.length = 2 ∧ wEmsM.length = 2 ∧
    (wEms.getLast (by decide)).1 = (wEmsM.getLast (by decide)).1 ∧
    (wEms.get ⟨0 + 1, by decide⟩).1 = ((wEms.get ⟨0, by decide⟩).1 + 1) % 4 ∧
    (wEmsM.get ⟨0 + 1, by decide⟩).1 = ((wEmsM.get ⟨0, by decide⟩).1 - 1) % 4 := by
  have h := move_direction_reversal 5000 5000 wClock wClock 10 10 2 (by decide)
    wEms wWrites wEmsM wWritesM (by decide) (by decide)
  exact ⟨h.1, h.2.1, h.2.2.1 (by decide) (by decide),
    h.2.2.2.1 0 (by decide), h.2.2.2.2 0 (by decide)⟩

end Stepper
